import Mathlib

/-!
# Verification of the stock-dashboard data pipeline

Shallow embedding of the data-cleaning and derived-metric pipeline of
`Dashboard.py`: the loader/normalizer (`load_data`), the currency formatter
(`format_number`), the historical-high calculator (`get_stock_highs`) and the
per-symbol latest-snapshot aggregator (`get_latest_stock_data`).

Machine reals are modelled by exact rationals (`ℚ`); the pandas missing
values (`NaN`/`NaT`) are modelled by `Option`.  The source file stores the
rupee glyph as the bytes `E2 82 B9` mis-decoded through cp1252; the embedding
uses the intended glyph `₹` throughout.
-/

namespace Dashboard

/-! ## Decimal-string parsing (models `pd.to_numeric` / `float`) -/

/-- Numeric value of a list of decimal digit characters, most significant
first (`"507"` ↦ `507`). -/
def digitsToNat (ds : List Char) : ℕ :=
  ds.foldl (fun n c => n * 10 + (c.toNat - 48)) 0

/-- Rational denoted by an integer digit string and a fraction digit string
(`"1234"`, `"5"` ↦ `1234.5`). -/
def ratOfDigits (ds fs : List Char) : ℚ :=
  (digitsToNat ds : ℚ) + (digitsToNat fs : ℚ) / (10 : ℚ) ^ fs.length

/-- `Series.str.replace(pattern, "")` for the one-character patterns the
source uses (`%`, the currency glyph, the comma): delete every occurrence. -/
def removeChar (c : Char) (cs : List Char) : List Char :=
  cs.filter (fun x => x ≠ c)

/-- `str.strip()`: drop whitespace from both ends. -/
def trimChars (cs : List Char) : List Char :=
  ((cs.dropWhile (·.isWhitespace)).reverse.dropWhile (·.isWhitespace)).reverse

/-- Parse a plain decimal numeral: optional sign, digits, optional fraction
part.  Returns `none` on anything else; models `pd.to_numeric(·,
errors=coerce)` on the cleaned strings this code feeds it. -/
def parseDecimalChars (cs : List Char) : Option ℚ :=
  let core : List Char → Option ℚ := fun cs =>
    let ds := cs.takeWhile (·.isDigit)
    let rest := cs.dropWhile (·.isDigit)
    match rest with
    | [] => if ds.isEmpty then none else some (ratOfDigits ds [])
    | '.' :: fr =>
        if fr.all (·.isDigit) && !(ds.isEmpty && fr.isEmpty) then
          some (ratOfDigits ds fr)
        else none
    | _ => none
  match cs with
  | '-' :: rest => (core rest).map (fun q => -q)
  | '+' :: rest => core rest
  | _ => core cs

/-- First match of the pattern `\d+(?:\.\d+)?` in a character list, as the
pair (integer digits, fraction digits); `none` when no digit occurs.
Models `Series.str.extract` with that pattern: maximal digit run starting at
the first digit, extended by a fraction part when a dot with at least one
digit follows. -/
def extractNumeric : List Char → Option (List Char × List Char)
  | [] => none
  | c :: rest =>
    if c.isDigit then
      let ds := (c :: rest).takeWhile (·.isDigit)
      let after := (c :: rest).dropWhile (·.isDigit)
      let fs := (after.drop 1).takeWhile (·.isDigit)
      if after.head? = some '.' ∧ fs ≠ [] then some (ds, fs)
      else some (ds, [])
    else extractNumeric rest

/-- Cleaning of the `%chng` column (Dashboard.py lines 111-112): drop every
`%`, trim whitespace, then parse; unparseable becomes missing. -/
def parsePercent (s : String) : Option ℚ :=
  parseDecimalChars (trimChars (removeChar '%' s.toList))

/-- Cleaning of the ratio columns ROE/ROCE/`P/E Ratio`/Book Value/Dividend
Yield (lines 116-119): drop `%` and the currency glyph, then parse. -/
def parseRatio (s : String) : Option ℚ :=
  parseDecimalChars (removeChar '₹' (removeChar '%' s.toList))

/-- Cleaning of the `Market Cap` column (lines 122-123): drop the currency
glyph and the thousands separators, extract the first numeric substring via
the pattern `(\d+(?:\.\d+)?)`, and parse it; no numeric substring means
missing. -/
def parseMarketCap (s : String) : Option ℚ :=
  match extractNumeric (removeChar ',' (removeChar '₹' s.toList)) with
  | none => none
  | some (ds, fs) => some (ratOfDigits ds fs)

/-- Cleaning of the `Symbol` column (line 126): trim whitespace, upper-case. -/
def normalizeSymbol (s : String) : String :=
  String.mk ((trimChars s.toList).map Char.toUpper)

/-! ## Currency formatting (`format_number`, lines 133-149) -/

/-- `q * 100` rounded to an integer, ties to even: the rounding used by the
`:.2f` format specification (exact-value model of the float formatting). -/
def roundCents (q : ℚ) : ℤ :=
  let x := q * 100
  let fl := Int.floor x
  let r := x - fl
  if r < 1 / 2 then fl
  else if 1 / 2 < r then fl + 1
  else if fl % 2 = 0 then fl else fl + 1

/-- Two zero-padded digits for the cents part. -/
def padFrac2 (n : ℕ) : String :=
  if n < 10 then "0" ++ toString n else toString n

/-- Split a (reversed) digit list into groups of three. -/
def chunk3 : List Char → List (List Char)
  | [] => []
  | [a] => [[a]]
  | [a, b] => [[a, b]]
  | a :: b :: c :: rest => [a, b, c] :: chunk3 rest

/-- Decimal digit string of `m` with `,` thousands separators, as in the
`:,` format specification. -/
def withCommas (m : ℕ) : String :=
  let ds := (toString m).toList
  String.mk (List.intersperse [','] ((chunk3 ds.reverse).reverse.map List.reverse)).flatten

/-- `f"{q:.2f}"`: two-decimal fixed-point rendering, no separators. -/
def fmt2 (q : ℚ) : String :=
  let n := roundCents q
  let a := n.natAbs
  (if q < 0 then "-" else "") ++ toString (a / 100) ++ "." ++ padFrac2 (a % 100)

/-- `f"{q:,.2f}"`: two-decimal fixed-point rendering with thousands
separators in the integer part. -/
def fmt2Commas (q : ℚ) : String :=
  let n := roundCents q
  let a := n.natAbs
  (if q < 0 then "-" else "") ++ withCommas (a / 100) ++ "." ++ padFrac2 (a % 100)

/-- `format_number` (lines 133-149) on an already-numeric (or missing)
value: missing maps to `"N/A"`, then the scale thresholds are tried largest
first.  (The string-argument re-parse branch of the source is exercised by
the presentation layer only and is not modelled.) -/
def format_number : Option ℚ → String
  | none => "N/A"
  | some num =>
    if num ≥ 1000000000 then "₹" ++ fmt2 (num / 1000000000) ++ "B"
    else if num ≥ 10000000 then "₹" ++ fmt2 (num / 10000000) ++ "Cr"
    else if num ≥ 100000 then "₹" ++ fmt2 (num / 100000) ++ "L"
    else "₹" ++ fmt2Commas num

/-! ## The data table

One row of the loaded DataFrame.  `Option` models pandas missing values
(`NaT` for the date, `NaN` for the numeric columns).  The purely
presentational free-text columns (Sector, Industry, About) carry no logic in
the pipeline and are not modelled. -/

structure Row where
  symbol : String
  date : Option ℕ
  ltp : Option ℚ
  chng : Option ℚ
  marketCap : Option ℚ
  roe : Option ℚ
  roce : Option ℚ
  pe : Option ℚ
  bookValue : Option ℚ
  divYield : Option ℚ
deriving DecidableEq

instance : Inhabited Row :=
  ⟨⟨"", none, none, none, none, none, none, none, none, none⟩⟩

/-! ## `get_stock_highs` (lines 151-160) -/

/-- `sort_values("Today's Date")` key: date ascending, missing dates last
(`na_position="last"`). -/
def dateLEb (a b : Row) : Bool :=
  match a.date, b.date with
  | _, none => true
  | none, some _ => false
  | some x, some y => decide (x ≤ y)

/-- The date sort order as a relation. -/
def dateR (a b : Row) : Prop := dateLEb a b = true

instance : DecidableRel dateR :=
  fun a b => instDecidableEqBool (dateLEb a b) true

instance : IsTotal Row dateR := by
  constructor
  intro a b
  simp only [dateR, dateLEb]
  rcases a.date with _ | x <;> rcases b.date with _ | y <;> simp
  omega

instance : IsTrans Row dateR := by
  constructor
  intro a b c
  simp only [dateR, dateLEb]
  rcases a.date with _ | x <;> rcases b.date with _ | y <;>
    rcases c.date with _ | z <;> simp
  omega

/-- Pandas elementwise `==` between two float columns: comparisons involving
`NaN` are `False`. -/
def ltpEq (a b : Option ℚ) : Bool :=
  match a, b with
  | some x, some y => x == y
  | _, _ => false

/-- `Series.cummax` with the running maximum threaded as an accumulator:
output is `NaN` exactly at the `NaN` positions of the input (`skipna`
default), and elsewhere the maximum of the non-missing prefix. -/
def cummaxCol : Option ℚ → List (Option ℚ) → List (Option ℚ)
  | _, [] => []
  | m, none :: xs => none :: cummaxCol m xs
  | none, some v :: xs => some v :: cummaxCol (some v) xs
  | some m0, some v :: xs =>
      some (max m0 v) :: cummaxCol (some (max m0 v)) xs

/-- `get_stock_highs(data, symbol)` (lines 151-160): for a non-empty symbol,
filter to the symbol, sort by date, attach the cumulative maximum of `LTP`,
and keep the rows where `LTP` equals it; the empty symbol or an empty
filtered frame give the empty frame. -/
def get_stock_highs (data : List Row) (symbol : String) : List Row :=
  if symbol ≠ "" then
    let sd := data.filter (fun r => r.symbol == symbol)
    if sd.isEmpty then []
    else
      let sorted := List.insertionSort dateR sd
      let highs := cummaxCol none (sorted.map Row.ltp)
      ((sorted.zip highs).filter (fun p => ltpEq p.1.ltp p.2)).map Prod.fst
  else []

/-- The zip-with-cummax filter fused into one recursion (the accumulator is
the running maximum so far). -/
def keepHighs : Option ℚ → List Row → List Row
  | _, [] => []
  | m, r :: rs =>
    match r.ltp with
    | none => keepHighs m rs
    | some v =>
      match m with
      | none => r :: keepHighs (some v) rs
      | some m0 =>
        if m0 ≤ v then r :: keepHighs (some (max m0 v)) rs
        else keepHighs (some (max m0 v)) rs

/-- Declarative reading of the claim: walking the rows in order, keep the
rows whose (non-missing) price is at least every price seen so far; `seen`
collects the prices already passed. -/
def runningHighsSpec : List ℚ → List Row → List Row
  | _, [] => []
  | seen, r :: rs =>
    match r.ltp with
    | none => runningHighsSpec seen rs
    | some v =>
      if seen.all (fun w => decide (w ≤ v)) then
        r :: runningHighsSpec (seen ++ [v]) rs
      else runningHighsSpec (seen ++ [v]) rs

/-- The zip-with-cummax filter of the source equals the fused recursion. -/
lemma zip_cummax_filter (m : Option ℚ) (l : List Row) :
    ((l.zip (cummaxCol m (l.map Row.ltp))).filter
        (fun p => ltpEq p.1.ltp p.2)).map Prod.fst = keepHighs m l := by
  induction l generalizing m with
  | nil => rfl
  | cons r rs ih =>
    cases hl : r.ltp with
    | none =>
      simp only [List.map_cons, hl, cummaxCol, List.zip_cons_cons,
        List.filter_cons, keepHighs]
      rw [if_neg (by simp [ltpEq])]
      exact ih m
    | some v =>
      cases m with
      | none =>
        simp only [List.map_cons, hl, cummaxCol, List.zip_cons_cons,
          List.filter_cons, keepHighs]
        rw [if_pos (show ltpEq (some v) (some v) = true by simp [ltpEq])]
        simp only [List.map_cons]
        rw [ih (some v)]
      | some m0 =>
        simp only [List.map_cons, hl, cummaxCol, List.zip_cons_cons,
          List.filter_cons, keepHighs]
        by_cases hle : m0 ≤ v
        · rw [max_eq_right hle]
          rw [if_pos (show ltpEq (some v) (some v) = true by simp [ltpEq]),
            if_pos hle]
          simp only [List.map_cons]
          rw [ih (some v)]
        · have hv : v < m0 := not_le.mp hle
          rw [max_eq_left hv.le]
          rw [if_neg (show ¬ ltpEq (some v) (some m0) = true by
                simp [ltpEq, hv.ne]),
            if_neg hle]
          exact ih (some m0)

/-- Running maximum as a bound: `none` bounds nothing. -/
def mLE : Option ℚ → ℚ → Prop
  | none, _ => True
  | some m0, v => m0 ≤ v

/-- The fused cummax filter agrees with the declarative running-highs spec
whenever the accumulated maximum summarises the list of seen prices. -/
lemma keepHighs_eq_spec (l : List Row) (m : Option ℚ) (seen : List ℚ)
    (h : ∀ v : ℚ, (seen.all (fun w => decide (w ≤ v)) = true) ↔ mLE m v) :
    keepHighs m l = runningHighsSpec seen l := by
  induction l generalizing m seen with
  | nil => rfl
  | cons r rs ih =>
    have hstep : ∀ v w : ℚ,
        ((seen ++ [v]).all (fun u => decide (u ≤ w)) = true) ↔
          mLE (some (match m with | none => v | some m0 => max m0 v)) w := by
      intro v w
      cases m with
      | none =>
        simp only [List.all_append, Bool.and_eq_true, h w, mLE,
          List.all_cons, List.all_nil, Bool.and_true, decide_eq_true_eq,
          true_and]
      | some m0 =>
        simp only [List.all_append, Bool.and_eq_true, h w, mLE,
          List.all_cons, List.all_nil, Bool.and_true, decide_eq_true_eq,
          max_le_iff]
    cases hl : r.ltp with
    | none =>
      simp only [keepHighs, runningHighsSpec, hl]
      exact ih m seen h
    | some v =>
      cases m with
      | none =>
        simp only [keepHighs, runningHighsSpec, hl]
        rw [if_pos ((h v).mpr trivial)]
        rw [ih (some v) (seen ++ [v]) (hstep v)]
      | some m0 =>
        simp only [keepHighs, runningHighsSpec, hl]
        by_cases hle : m0 ≤ v
        · rw [if_pos hle, if_pos ((h v).mpr hle),
            ih (some (max m0 v)) (seen ++ [v]) (hstep v)]
        · rw [if_neg hle, if_neg (fun hc => hle ((h v).mp hc)),
            ih (some (max m0 v)) (seen ++ [v]) (hstep v)]

/-- Every row kept by the cummax filter has a present price. -/
lemma keepHighs_ltp_isSome (l : List Row) (m : Option ℚ) (r : Row)
    (hr : r ∈ keepHighs m l) : r.ltp.isSome := by
  induction l generalizing m with
  | nil => cases hr
  | cons a rs ih =>
    revert hr
    cases hl : a.ltp with
    | none =>
      simp only [keepHighs, hl]
      exact fun hr => ih m hr
    | some v =>
      cases m with
      | none =>
        simp only [keepHighs, hl]
        intro hr
        rcases List.mem_cons.mp hr with h | h
        · subst h; simp [hl]
        · exact ih (some v) h
      | some m0 =>
        simp only [keepHighs, hl]
        by_cases hle : m0 ≤ v
        · rw [if_pos hle]
          intro hr
          rcases List.mem_cons.mp hr with h | h
          · subst h; simp [hl]
          · exact ih (some (max m0 v)) h
        · rw [if_neg hle]
          exact fun hr => ih (some (max m0 v)) hr

/-- Rows kept above an accumulated maximum have prices at least that
maximum. -/
lemma keepHighs_ltp_ge (l : List Row) (v0 : ℚ) (r : Row)
    (hr : r ∈ keepHighs (some v0) l) : ∀ w, r.ltp = some w → v0 ≤ w := by
  induction l generalizing v0 with
  | nil => cases hr
  | cons a rs ih =>
    revert hr
    cases hl : a.ltp with
    | none =>
      simp only [keepHighs, hl]
      exact fun hr => ih v0 hr
    | some v =>
      simp only [keepHighs, hl]
      by_cases hle : v0 ≤ v
      · rw [if_pos hle]
        intro hr
        rcases List.mem_cons.mp hr with h | h
        · subst h
          intro w hw
          rw [hl] at hw
          exact hle.trans_eq (Option.some_injective ℚ hw)
        · intro w hw
          exact (le_max_left v0 v).trans (ih (max v0 v) h w hw)
      · rw [if_neg hle]
        intro hr w hw
        exact (le_max_left v0 v).trans (ih (max v0 v) hr w hw)

/-- The prices kept by the cummax filter are non-decreasing. -/
lemma keepHighs_chain (l : List Row) (m : Option ℚ) :
    List.Chain' (· ≤ ·) ((keepHighs m l).filterMap Row.ltp) := by
  induction l generalizing m with
  | nil => exact List.chain'_nil
  | cons a rs ih =>
    cases hl : a.ltp with
    | none =>
      simp only [keepHighs, hl]
      exact ih m
    | some v =>
      simp only [keepHighs, hl]
      have hcons : ∀ m' : Option ℚ, (∀ r ∈ keepHighs m' rs, ∀ w,
          r.ltp = some w → v ≤ w) →
          List.Chain' (· ≤ ·) ((a :: keepHighs m' rs).filterMap Row.ltp) := by
        intro m' hge
        simp only [List.filterMap_cons, hl]
        rw [List.chain'_cons']
        refine ⟨?_, ih m'⟩
        intro b hb
        have hb' := List.mem_of_mem_head? hb
        rcases List.mem_filterMap.mp hb' with ⟨r', hr', hltp⟩
        exact hge r' hr' b hltp
      cases m with
      | none =>
        refine hcons (some v) ?_
        intro r' hr' w hw
        exact keepHighs_ltp_ge rs v r' hr' w hw
      | some m0 =>
        dsimp only
        by_cases hle : m0 ≤ v
        · rw [if_pos hle]
          refine hcons (some (max m0 v)) ?_
          intro r' hr' w hw
          exact (le_max_right m0 v).trans
            (keepHighs_ltp_ge rs (max m0 v) r' hr' w hw)
        · rw [if_neg hle]
          exact ih (some (max m0 v))

/-- For a non-empty symbol, `get_stock_highs` is the fused cummax filter of
the date-sorted, symbol-filtered rows. -/
lemma get_stock_highs_eq (data : List Row) (s : String) (hs : s ≠ "") :
    get_stock_highs data s =
      keepHighs none
        (List.insertionSort dateR (data.filter (fun r => r.symbol == s))) := by
  simp only [get_stock_highs, if_pos hs]
  by_cases he : (data.filter (fun r => r.symbol == s)).isEmpty
  · rw [if_pos he]
    rw [List.isEmpty_iff.mp he]
    rfl
  · rw [if_neg he]
    exact zip_cummax_filter none _

/-- A row of the worked example of the spec: symbol `"A"`, day `d`, price
`p`, every other field missing. -/
def exRow (d : ℕ) (p : ℚ) : Row :=
  { symbol := "A", date := some d, ltp := some p, chng := none,
    marketCap := none, roe := none, roce := none, pe := none,
    bookValue := none, divYield := none }

/-- Prices [10, 12, 12, 9, 15] on 5 consecutive dates. -/
def exTable : List Row :=
  [exRow 1 10, exRow 2 12, exRow 3 12, exRow 4 9, exRow 5 15]

/-- C1: for every table and non-empty symbol, `historicalHighs` filters to
the symbol, sorts by date ascending, and returns exactly the rows whose
price is at least every earlier price (the running-maximum filter); on the
5-day example with prices [10, 12, 12, 9, 15] it returns exactly the rows at
positions 1, 2, 3 and 5. -/
theorem claim1_historicalHighs :
    (∀ (data : List Row) (s : String), s ≠ "" →
      get_stock_highs data s =
        runningHighsSpec []
          (List.insertionSort dateR (data.filter (fun r => r.symbol == s)))) ∧
    get_stock_highs exTable "A" =
      [exRow 1 10, exRow 2 12, exRow 3 12, exRow 5 15] := by
  constructor
  · intro data s hs
    rw [get_stock_highs_eq data s hs]
    exact keepHighs_eq_spec _ none [] (by intro v; simp [mLE])
  · decide

/-- Witness for C1: the general clause applied to the concrete example
table and symbol. -/
theorem claim1_historicalHighs_witness :
    get_stock_highs exTable "A" =
      runningHighsSpec []
        (List.insertionSort dateR (exTable.filter (fun r => r.symbol == "A"))) :=
  claim1_historicalHighs.1 exTable "A" (by decide)

/-- C6: the prices of the rows returned by `historicalHighs`, in the
returned (date) order, are non-decreasing across consecutive rows; moreover
every returned row has a present price. -/
theorem claim6_highs_nondecreasing :
    ∀ (data : List Row) (s : String),
      List.Chain' (· ≤ ·) ((get_stock_highs data s).filterMap Row.ltp) ∧
      ∀ r ∈ get_stock_highs data s, r.ltp.isSome := by
  intro data s
  by_cases hs : s = ""
  · subst hs
    simp [get_stock_highs]
  · rw [get_stock_highs_eq data s hs]
    exact ⟨keepHighs_chain _ none,
      fun r hr => keepHighs_ltp_isSome _ none r hr⟩

/-- Witness for C6: the chain property and the presence of the price on a
concrete returned row of the example table. -/
theorem claim6_highs_nondecreasing_witness :
    List.Chain' (· ≤ ·) ((get_stock_highs exTable "A").filterMap Row.ltp) ∧
    (exRow 1 10).ltp.isSome :=
  ⟨(claim6_highs_nondecreasing exTable "A").1,
   (claim6_highs_nondecreasing exTable "A").2 (exRow 1 10) (by decide)⟩

/-- C10: `get_stock_highs` called with the empty-string symbol returns the
empty frame whatever the table holds (the source guards on the truthiness of
`symbol`), even when rows carry the empty symbol themselves. -/
theorem claim10_empty_search_symbol :
    ∀ data : List Row, get_stock_highs data "" = [] := by
  intro data
  simp [get_stock_highs]

/-! ## Stable sorting lemmas

`sort_values` on several keys uses a stable lexicographic sort and
`groupby` preserves the order of rows inside each group, so filtering a
group out of the sorted frame is the same as sorting the group.  This is the
commutation of `List.filter` with `List.insertionSort` proved here. -/

section SortFilter

variable {α : Type _} (r : α → α → Prop) [DecidableRel r]

lemma orderedInsert_of_forall_rel (a : α) (l : List α)
    (h : ∀ b ∈ l, r a b) : l.orderedInsert r a = a :: l := by
  cases l with
  | nil => rfl
  | cons b t => exact List.orderedInsert_of_le r t (h b (List.mem_cons_self b t))

lemma filter_orderedInsert [IsTrans α r] (p : α → Bool) (a : α) (l : List α)
    (hs : l.Sorted r) :
    (l.orderedInsert r a).filter p =
      if p a then (l.filter p).orderedInsert r a else l.filter p := by
  induction l with
  | nil =>
    by_cases hpa : p a <;> simp [List.orderedInsert, List.filter_cons, hpa]
  | cons b t ih =>
    rcases List.sorted_cons.mp hs with ⟨hb, ht⟩
    by_cases hab : r a b
    · rw [List.orderedInsert_of_le r t hab]
      by_cases hpa : p a
      · have hall : ∀ c ∈ (b :: t).filter p, r a c := by
          intro c hc
          rcases List.mem_cons.mp (List.mem_of_mem_filter hc) with h | h
          · subst h; exact hab
          · exact IsTrans.trans a b c hab (hb c h)
        rw [if_pos hpa, orderedInsert_of_forall_rel r a _ hall,
          List.filter_cons_of_pos hpa]
      · rw [if_neg hpa, List.filter_cons_of_neg hpa]
    · simp only [List.orderedInsert, if_neg hab]
      by_cases hpa : p a <;> by_cases hpb : p b <;>
        simp [List.filter_cons, hpa, hpb, ih ht, List.orderedInsert, hab]

lemma filter_insertionSort [IsTotal α r] [IsTrans α r] (p : α → Bool)
    (l : List α) :
    (List.insertionSort r l).filter p = List.insertionSort r (l.filter p) := by
  induction l with
  | nil => rfl
  | cons a t ih =>
    simp only [List.insertionSort]
    rw [filter_orderedInsert r p a _ (List.sorted_insertionSort r t), ih,
      List.filter_cons]
    by_cases hpa : p a <;> simp [hpa, List.insertionSort]

end SortFilter

/-! ## `get_latest_stock_data` (lines 253-258) -/

/-- Percent-change tie-break key: descending, missing last (the pandas
`na_position="last"` behaviour of the multi-key sort). -/
def optDescLE : Option ℚ → Option ℚ → Bool
  | _, none => true
  | none, some _ => false
  | some u, some w => decide (w ≤ u)

/-- Date key: descending, missing last, ties passed to the tie-break key. -/
def optNatDescLE (tie : Bool) : Option ℕ → Option ℕ → Bool
  | none, none => tie
  | none, some _ => false
  | some _, none => true
  | some x, some y => if x = y then tie else decide (y < x)

/-- The `sort_values(["Today's Date", "%chng"], ascending=[False, False])`
order: date descending, then percent-change descending, missing values last
on both keys. -/
def dcLEb (a b : Row) : Bool :=
  optNatDescLE (optDescLE a.chng b.chng) a.date b.date

/-- The two-key descending sort order as a relation. -/
def dcR (a b : Row) : Prop := dcLEb a b = true

instance : DecidableRel dcR :=
  fun a b => instDecidableEqBool (dcLEb a b) true

lemma optDescLE_total (a b : Option ℚ) :
    optDescLE a b = true ∨ optDescLE b a = true := by
  rcases a with _ | u <;> rcases b with _ | w <;> simp [optDescLE]
  exact le_total w u

lemma optDescLE_trans {a b c : Option ℚ} (h1 : optDescLE a b = true)
    (h2 : optDescLE b c = true) : optDescLE a c = true := by
  rcases a with _ | u <;> rcases b with _ | v <;> rcases c with _ | w <;>
    simp_all [optDescLE]
  exact h2.trans h1

lemma optNatDescLE_total {c1 c2 : Bool} (da db : Option ℕ)
    (hc : c1 = true ∨ c2 = true) :
    optNatDescLE c1 da db = true ∨ optNatDescLE c2 db da = true := by
  rcases da with _ | x <;> rcases db with _ | y <;> simp_all [optNatDescLE]
  by_cases hxy : x = y
  · subst hxy
    simpa using hc
  · rw [if_neg hxy, if_neg (Ne.symm hxy)]
    omega

lemma optNatDescLE_trans {c1 c2 c3 : Bool} {da db dc : Option ℕ}
    (hc : c1 = true → c2 = true → c3 = true)
    (h1 : optNatDescLE c1 da db = true)
    (h2 : optNatDescLE c2 db dc = true) :
    optNatDescLE c3 da dc = true := by
  rcases da with _ | x <;> rcases db with _ | y <;> rcases dc with _ | z <;>
    simp_all [optNatDescLE]
  by_cases hxy : x = y <;> by_cases hyz : y = z <;> by_cases hxz : x = z <;>
    simp_all <;> omega

instance : IsTotal Row dcR := by
  constructor
  intro a b
  exact optNatDescLE_total a.date b.date (optDescLE_total a.chng b.chng)

instance : IsTrans Row dcR := by
  constructor
  intro a b c h1 h2
  exact optNatDescLE_trans (fun u v => optDescLE_trans u v) h1 h2

/-- Codepoint-lexicographic order on strings: the order in which `groupby`
(with its default `sort=True`) lists the group keys. -/
def charListLE : List Char → List Char → Bool
  | [], _ => true
  | _ :: _, [] => false
  | a :: as, b :: bs => if a = b then charListLE as bs else decide (a < b)

/-- The group-key order as a relation. -/
def strR (s t : String) : Prop := charListLE s.toList t.toList = true

instance : DecidableRel strR :=
  fun s t => instDecidableEqBool (charListLE s.toList t.toList) true

/-- The final `sort_values("count", ascending=False)` order. -/
def cntR (p q : Row × ℕ) : Prop := q.2 ≤ p.2

instance : DecidableRel cntR :=
  fun p q => inferInstanceAs (Decidable (q.2 ≤ p.2))

/-- The group aggregate for one symbol: `groupby("Symbol").first()` takes,
independently for each column, the first non-null value of the group in the
sorted frame's order, and `map(stock_counts)` attaches the symbol's row
count in the input. -/
def mkLatest (fd : List Row) (s : String) : Row × ℕ :=
  let g := (List.insertionSort dcR fd).filter (fun r => r.symbol == s)
  ({ symbol := s,
     date := (g.map Row.date).findSome? id,
     ltp := (g.map Row.ltp).findSome? id,
     chng := (g.map Row.chng).findSome? id,
     marketCap := (g.map Row.marketCap).findSome? id,
     roe := (g.map Row.roe).findSome? id,
     roce := (g.map Row.roce).findSome? id,
     pe := (g.map Row.pe).findSome? id,
     bookValue := (g.map Row.bookValue).findSome? id,
     divYield := (g.map Row.divYield).findSome? id },
   fd.countP (fun r => r.symbol == s))

/-- `get_latest_stock_data(filtered_data)` (lines 253-258): sort by date and
percent-change descending, group by symbol (keys sorted ascending), take the
first non-null entry of each column per group, attach the per-symbol row
counts of the input, and sort by count descending. -/
def get_latest_stock_data (fd : List Row) : List (Row × ℕ) :=
  List.insertionSort cntR
    ((List.insertionSort strR (fd.map Row.symbol).dedup).map (mkLatest fd))

/-- The spec's reading of lines 253-258, used to compare against the code:
for each symbol pick the whole row that sorts first by (date descending,
percent-change descending, nulls last), attach the count, and sort by count
descending. -/
def latestPerSymbolClaimed (fd : List Row) : List (Row × ℕ) :=
  List.insertionSort cntR
    ((List.insertionSort strR (fd.map Row.symbol).dedup).map (fun s =>
      ((List.insertionSort dcR (fd.filter (fun r => r.symbol == s))).headD
          default,
       fd.countP (fun r => r.symbol == s))))

/-- Membership in the aggregate result: exactly the aggregates of the
symbols occurring in the input. -/
lemma mem_get_latest (fd : List Row) (x : Row × ℕ) :
    x ∈ get_latest_stock_data fd ↔
      ∃ s ∈ (fd.map Row.symbol).dedup, x = mkLatest fd s := by
  unfold get_latest_stock_data
  rw [List.Perm.mem_iff (List.perm_insertionSort cntR _)]
  simp only [List.mem_map, List.mem_insertionSort]
  constructor
  · rintro ⟨s, hs, rfl⟩
    exact ⟨s, hs, rfl⟩
  · rintro ⟨s, hs, rfl⟩
    exact ⟨s, hs, rfl⟩

/-- A symbol-"A" row on day 2 whose percent-change is missing. -/
def exNewer : Row :=
  { symbol := "A", date := some 2, ltp := some 100, chng := none,
    marketCap := none, roe := none, roce := none, pe := none,
    bookValue := none, divYield := none }

/-- A symbol-"A" row on day 1 whose percent-change is present. -/
def exOlder : Row :=
  { symbol := "A", date := some 1, ltp := some 50, chng := some 5,
    marketCap := none, roe := none, roce := none, pe := none,
    bookValue := none, divYield := none }

/-- A table where the latest row of the only symbol has a missing field. -/
def exC2 : List Row := [exNewer, exOlder]

/-- C2 counterexample: on `exC2` the code does not select the maximum-date
row as a whole.  The maximum-date row (`exNewer`) has a missing
percent-change, but `groupby(...).first()` takes the first non-null value of
each column separately, so the output row carries the percent-change `5` of
the older row, while the claimed row-wise selection carries `none`. -/
theorem claim2_latest_counterexample :
    get_latest_stock_data exC2 ≠ latestPerSymbolClaimed exC2 ∧
    (get_latest_stock_data exC2).map (fun p => p.1.chng) = [some 5] ∧
    (latestPerSymbolClaimed exC2).map (fun p => p.1.chng) = [none] := by
  refine ⟨by decide, by decide, by decide⟩

/-- C2 (amended): `latestPerSymbol` groups rows by symbol, and for each
symbol occurring in the table returns exactly one entry whose fields are,
independently for each column, the first non-null value of that column over
the symbol's rows ordered by date descending then percent-change descending
(missing values last on both keys, original order on full ties), together
with the symbol's row count.  When the first row of that order has no
missing fields, this is exactly that row. -/
theorem claim2_latest_per_symbol_amended :
    ∀ (l : List Row) (s : String), (∃ r ∈ l, r.symbol = s) →
      ∃ p ∈ get_latest_stock_data l,
        p.1.symbol = s ∧
        (∀ q ∈ get_latest_stock_data l, q.1.symbol = s → q = p) ∧
        (let g := List.insertionSort dcR (l.filter (fun r => r.symbol == s))
         p.1.date = (g.map Row.date).findSome? id ∧
         p.1.chng = (g.map Row.chng).findSome? id ∧
         p.1.ltp = (g.map Row.ltp).findSome? id ∧
         p.1.marketCap = (g.map Row.marketCap).findSome? id ∧
         p.2 = l.countP (fun r => r.symbol == s)) := by
  intro l s hs
  rcases hs with ⟨r0, hr0, hr0s⟩
  have hmem : s ∈ (l.map Row.symbol).dedup :=
    List.mem_dedup.mpr (List.mem_map.mpr ⟨r0, hr0, hr0s⟩)
  refine ⟨mkLatest l s, (mem_get_latest l _).mpr ⟨s, hmem, rfl⟩, rfl, ?_, ?_⟩
  · intro q hq hqs
    rcases (mem_get_latest l q).mp hq with ⟨t, ht, rfl⟩
    have hts : t = s := hqs
    rw [hts]
  · have hcomm := filter_insertionSort dcR (fun r => r.symbol == s) l
    simp [mkLatest, hcomm]

/-- Witness for the amended C2: the characterization instantiated on the
concrete two-row table. -/
theorem claim2_latest_per_symbol_amended_witness :
    ∃ p ∈ get_latest_stock_data exC2,
      p.1.symbol = "A" ∧
      (∀ q ∈ get_latest_stock_data exC2, q.1.symbol = "A" → q = p) ∧
      (let g := List.insertionSort dcR (exC2.filter (fun r => r.symbol == "A"))
       p.1.date = (g.map Row.date).findSome? id ∧
       p.1.chng = (g.map Row.chng).findSome? id ∧
       p.1.ltp = (g.map Row.ltp).findSome? id ∧
       p.1.marketCap = (g.map Row.marketCap).findSome? id ∧
       p.2 = exC2.countP (fun r => r.symbol == "A")) :=
  claim2_latest_per_symbol_amended exC2 "A" (by decide)

/-- C5: every entry of `latestPerSymbol` carries as `count` the number of
rows of its symbol in the input table, and this count is invariant under
permuting the input rows. -/
theorem claim5_latest_counts :
    (∀ (l : List Row) (p : Row × ℕ), p ∈ get_latest_stock_data l →
        p.2 = l.countP (fun r => r.symbol == p.1.symbol)) ∧
    (∀ (l1 l2 : List Row), l1.Perm l2 →
      ∀ p q, p ∈ get_latest_stock_data l1 → q ∈ get_latest_stock_data l2 →
        p.1.symbol = q.1.symbol → p.2 = q.2) := by
  have h1 : ∀ (l : List Row) (p : Row × ℕ), p ∈ get_latest_stock_data l →
      p.2 = l.countP (fun r => r.symbol == p.1.symbol) := by
    intro l p hp
    rcases (mem_get_latest l p).mp hp with ⟨s, hs, rfl⟩
    rfl
  refine ⟨h1, ?_⟩
  intro l1 l2 hperm p q hp hq hsym
  rw [h1 l1 p hp, h1 l2 q hq, hsym]
  exact hperm.countP_eq _

/-- Witness for C5: the count attached to the aggregate of symbol "A" in the
two-row table is its row count there, and it agrees with the count computed
from the reversed table. -/
theorem claim5_latest_counts_witness :
    (mkLatest exC2 "A").2 =
      exC2.countP (fun r => r.symbol == (mkLatest exC2 "A").1.symbol) ∧
    (mkLatest exC2 "A").2 = (mkLatest exC2.reverse "A").2 :=
  ⟨claim5_latest_counts.1 exC2 (mkLatest exC2 "A") (by decide),
   claim5_latest_counts.2 exC2 exC2.reverse (List.reverse_perm exC2).symm
     (mkLatest exC2 "A") (mkLatest exC2.reverse "A") (by decide) (by decide)
     (by decide)⟩

/-- C9: `latestPerSymbol` of the empty table is the empty result (and, the
function being total, no error is raised). -/
theorem claim9_latest_empty : get_latest_stock_data [] = [] := rfl

/-! ## The formatter claims -/

lemma roundCents_intCast (q : ℚ) (n : ℤ) (h : q * 100 = (n : ℚ)) :
    roundCents q = n := by
  simp only [roundCents]
  rw [h, Int.floor_intCast, sub_self]
  norm_num

lemma fmt2_one_eq : fmt2 1 = "1.00" := by
  simp only [fmt2]
  rw [roundCents_intCast 1 100 (by norm_num), if_neg (by norm_num : ¬ (1 : ℚ) < 0)]
  rfl

lemma fmt2_five_eq : fmt2 5 = "5.00" := by
  simp only [fmt2]
  rw [roundCents_intCast 5 500 (by norm_num), if_neg (by norm_num : ¬ (5 : ℚ) < 0)]
  rfl

lemma fmt2_two_eq : fmt2 2 = "2.00" := by
  simp only [fmt2]
  rw [roundCents_intCast 2 200 (by norm_num), if_neg (by norm_num : ¬ (2 : ℚ) < 0)]
  rfl

lemma fmt2Commas_500_eq : fmt2Commas 500 = "500.00" := by
  simp only [fmt2Commas]
  rw [roundCents_intCast 500 50000 (by norm_num),
    if_neg (by norm_num : ¬ (500 : ℚ) < 0)]
  rfl

/-- C3: `formatCurrency` maps a missing value to `"N/A"`; a numeric value is
scaled at the thresholds largest first (1e9 → `B`, 1e7 → `Cr`, 1e5 → `L`,
otherwise raw with thousands separators), each rendered with two decimals;
in particular the five concrete examples of the spec hold. -/
theorem claim3_format_currency :
    format_number none = "N/A" ∧
    format_number (some 1000000000) = "₹1.00B" ∧
    format_number (some 50000000) = "₹5.00Cr" ∧
    format_number (some 200000) = "₹2.00L" ∧
    format_number (some 500) = "₹500.00" ∧
    (∀ v : ℚ, 1000000000 ≤ v →
      format_number (some v) = "₹" ++ fmt2 (v / 1000000000) ++ "B") ∧
    (∀ v : ℚ, 10000000 ≤ v → v < 1000000000 →
      format_number (some v) = "₹" ++ fmt2 (v / 10000000) ++ "Cr") ∧
    (∀ v : ℚ, 100000 ≤ v → v < 10000000 →
      format_number (some v) = "₹" ++ fmt2 (v / 100000) ++ "L") ∧
    (∀ v : ℚ, v < 100000 → format_number (some v) = "₹" ++ fmt2Commas v) := by
  refine ⟨rfl, ?_, ?_, ?_, ?_, ?_, ?_, ?_, ?_⟩
  · simp only [format_number]
    rw [if_pos (by norm_num : (1000000000 : ℚ) ≥ 1000000000),
      show (1000000000 : ℚ) / 1000000000 = 1 by norm_num, fmt2_one_eq]
    decide
  · simp only [format_number]
    rw [if_neg (by norm_num : ¬ (50000000 : ℚ) ≥ 1000000000),
      if_pos (by norm_num : (50000000 : ℚ) ≥ 10000000),
      show (50000000 : ℚ) / 10000000 = 5 by norm_num, fmt2_five_eq]
    decide
  · simp only [format_number]
    rw [if_neg (by norm_num : ¬ (200000 : ℚ) ≥ 1000000000),
      if_neg (by norm_num : ¬ (200000 : ℚ) ≥ 10000000),
      if_pos (by norm_num : (200000 : ℚ) ≥ 100000),
      show (200000 : ℚ) / 100000 = 2 by norm_num, fmt2_two_eq]
    decide
  · simp only [format_number]
    rw [if_neg (by norm_num : ¬ (500 : ℚ) ≥ 1000000000),
      if_neg (by norm_num : ¬ (500 : ℚ) ≥ 10000000),
      if_neg (by norm_num : ¬ (500 : ℚ) ≥ 100000), fmt2Commas_500_eq]
    decide
  · intro v hv
    simp only [format_number]
    rw [if_pos (show v ≥ 1000000000 from hv)]
  · intro v h1 h9
    simp only [format_number]
    rw [if_neg (show ¬ v ≥ 1000000000 from not_le.mpr h9),
      if_pos (show v ≥ 10000000 from h1)]
  · intro v h1 h7
    simp only [format_number]
    rw [if_neg (show ¬ v ≥ 1000000000 from not_le.mpr (by linarith)),
      if_neg (show ¬ v ≥ 10000000 from not_le.mpr h7),
      if_pos (show v ≥ 100000 from h1)]
  · intro v h5
    simp only [format_number]
    rw [if_neg (show ¬ v ≥ 1000000000 from not_le.mpr (by linarith)),
      if_neg (show ¬ v ≥ 10000000 from not_le.mpr (by linarith)),
      if_neg (show ¬ v ≥ 100000 from not_le.mpr h5)]

/-- Witness for C3: the below-threshold clause applied at the value 500. -/
theorem claim3_format_currency_witness :
    format_number (some 500) = "₹" ++ fmt2Commas 500 :=
  claim3_format_currency.2.2.2.2.2.2.2.2 500 (by norm_num)

/-! ## The market-cap parsing claim -/

lemma extractNumeric_ne_none (c : Char) (rest : List Char)
    (hd : c.isDigit = true) : extractNumeric (c :: rest) ≠ none := by
  simp only [extractNumeric, if_pos hd]
  split <;> simp

/-- Extraction fails exactly on digit-free strings. -/
lemma extractNumeric_eq_none_iff : ∀ cs : List Char,
    (extractNumeric cs = none ↔ cs.all (fun c => !c.isDigit) = true)
  | [] => by simp [extractNumeric]
  | c :: rest => by
    by_cases hd : c.isDigit
    · simp [List.all_cons, hd, extractNumeric_ne_none c rest hd]
    · simp [extractNumeric, hd, extractNumeric_eq_none_iff rest]

/-- C8: market-cap parsing strips the currency glyph and the thousands
separators, pattern-extracts the first numeric substring and parses it; a
digit-free field becomes missing; concretely `"₹1,234.5Cr"` parses to
`1234.5`. -/
theorem claim8_marketcap_parsing :
    parseMarketCap "₹1,234.5Cr" = some ((2469 : ℚ) / 2) ∧
    (∀ s : String, parseMarketCap s = none ↔
      (removeChar ',' (removeChar '₹' s.toList)).all
        (fun c => !c.isDigit) = true) ∧
    (∀ (s : String) (ds fs : List Char),
      extractNumeric (removeChar ',' (removeChar '₹' s.toList)) =
          some (ds, fs) →
      parseMarketCap s = some (ratOfDigits ds fs)) := by
  refine ⟨?_, ?_, ?_⟩
  · rw [show parseMarketCap "₹1,234.5Cr" =
        some (ratOfDigits ['1', '2', '3', '4'] ['5']) from rfl]
    simp only [ratOfDigits]
    rw [show digitsToNat ['1', '2', '3', '4'] = 1234 from rfl,
      show digitsToNat ['5'] = 5 from rfl]
    norm_num
  · intro s
    unfold parseMarketCap
    cases h : extractNumeric (removeChar ',' (removeChar '₹' s.toList)) with
    | none =>
      simp only [true_iff]
      simpa using (extractNumeric_eq_none_iff _).mp h
    | some p =>
      obtain ⟨ds, fs⟩ := p
      simp only [reduceCtorEq, false_iff]
      intro hall
      have h2 := (extractNumeric_eq_none_iff
        (removeChar ',' (removeChar '₹' s.toList))).mpr hall
      rw [h] at h2
      exact Option.noConfusion h2
  · intro s ds fs h
    unfold parseMarketCap
    rw [h]

/-- Witness for C8: the no-digit clause applied to a digit-free field and
the extraction clause applied to the concrete example. -/
theorem claim8_marketcap_parsing_witness :
    parseMarketCap "abc" = none ∧
    parseMarketCap "₹1,234.5Cr" = some (ratOfDigits ['1', '2', '3', '4'] ['5']) :=
  ⟨(claim8_marketcap_parsing.2.1 "abc").mpr (by decide),
   claim8_marketcap_parsing.2.2 "₹1,234.5Cr" ['1', '2', '3', '4'] ['5']
     (by decide)⟩

/-! ## `load_data` (lines 103-131)

The input file is modelled as an association of column names to cell
strings (`none` for a file that cannot be read or parsed as a CSV at all),
and `pd.to_datetime` as an arbitrary per-cell date parser that raises
(returns `none`) on an unparseable cell.  The `try`/`except` of the source
turns any raised error into a user-visible message plus an empty frame,
modelled by `Except.error`. -/

/-- A raw CSV table: column name ↦ the column's cells. -/
abbrev RawTable := List (String × List String)

/-- Column lookup; `none` models the `KeyError` of a missing column. -/
def getCol (t : RawTable) (name : String) : Option (List String) :=
  (t.find? (fun c => c.1 == name)).map Prod.snd

/-- `pd.to_datetime` over the whole column: any unparseable cell raises. -/
def parseAll (f : String → Option ℕ) : List String → Option (List ℕ)
  | [] => some []
  | c :: cs =>
    match f c, parseAll f cs with
    | some d, some ds => some (d :: ds)
    | _, _ => none

/-- The columns the `try` block accesses unconditionally, the only ones
whose mere absence raises: the ratio columns are guarded by
`if col in df.columns` and `LTP` is never touched by the loader. -/
def accessedColumns : List String :=
  ["Today's Date", "%chng", "Market Cap", "Symbol"]

/-- The spec's full list of required input columns (§6), which it says must
be present for the load to succeed; stated from the spec's words to compare
with what the code enforces. -/
def specRequiredColumns : List String :=
  ["Today's Date", "Symbol", "LTP", "%chng", "Sector", "Industry",
   "Market Cap", "ROE", "ROCE", "P/E Ratio", "Book Value", "Dividend Yield",
   "About"]

/-- Row `i` of the loaded frame.  `LTP` is never cleaned by the source, so
its value is `read_csv`'s own numeric inference, modelled as a plain decimal
parse; a ratio column that is absent leaves the field missing. -/
def loadedRow (t : RawTable) (dates : List ℕ)
    (chngCells mcapCells symCells : List String) (i : ℕ) : Row :=
  { symbol := normalizeSymbol (symCells.getD i ""),
    date := some (dates.getD i 0),
    ltp := (getCol t "LTP").bind
      (fun cells => parseDecimalChars (cells.getD i "").toList),
    chng := parsePercent (chngCells.getD i ""),
    marketCap := parseMarketCap (mcapCells.getD i ""),
    roe := (getCol t "ROE").bind (fun cells => parseRatio (cells.getD i "")),
    roce := (getCol t "ROCE").bind (fun cells => parseRatio (cells.getD i "")),
    pe := (getCol t "P/E Ratio").bind
      (fun cells => parseRatio (cells.getD i "")),
    bookValue := (getCol t "Book Value").bind
      (fun cells => parseRatio (cells.getD i "")),
    divYield := (getCol t "Dividend Yield").bind
      (fun cells => parseRatio (cells.getD i "")) }

/-- `load_data(file)` (lines 103-131): unreadable file, a missing required
column, or an unparseable date cell raise and are caught (`Except.error`);
otherwise every row is cleaned field by field, with field-level parse
failures becoming missing values. -/
def load_data (dateParse : String → Option ℕ) (file : Option RawTable) :
    Except String (List Row) :=
  match file with
  | none => .error "could not read file"
  | some t =>
    match getCol t "Today's Date" with
    | none => .error "missing column: Today's Date"
    | some dateCells =>
      match parseAll dateParse dateCells with
      | none => .error "unparseable date"
      | some dates =>
        match getCol t "%chng" with
        | none => .error "missing column: %chng"
        | some chngCells =>
          match getCol t "Market Cap" with
          | none => .error "missing column: Market Cap"
          | some mcapCells =>
            match getCol t "Symbol" with
            | none => .error "missing column: Symbol"
            | some symCells =>
              .ok ((List.range dates.length).map
                (loadedRow t dates chngCells mcapCells symCells))

/-- Date-column parsing fails exactly when some cell is unparseable. -/
lemma parseAll_eq_none_iff (f : String → Option ℕ) : ∀ l : List String,
    (parseAll f l = none ↔ ∃ c ∈ l, f c = none)
  | [] => by simp [parseAll]
  | c :: cs => by
    simp only [parseAll]
    cases hf : f c with
    | none =>
      constructor
      · intro _
        exact ⟨c, List.mem_cons_self c cs, hf⟩
      · intro _
        rfl
    | some d =>
      cases hp : parseAll f cs with
      | none =>
        constructor
        · intro _
          rcases (parseAll_eq_none_iff f cs).mp hp with ⟨x, hx, hfx⟩
          exact ⟨x, List.mem_cons_of_mem c hx, hfx⟩
        · intro _
          rfl
      | some ds =>
        constructor
        · intro h
          exact Option.noConfusion h
        · rintro ⟨x, hx, hfx⟩
          rcases List.mem_cons.mp hx with rfl | hx'
          · rw [hf] at hfx
            exact Option.noConfusion hfx
          · have hnone := (parseAll_eq_none_iff f cs).mpr ⟨x, hx', hfx⟩
            rw [hp] at hnone
            exact Option.noConfusion hnone

/-- C4 (amended): the load signals an error (returning no usable rows)
exactly when the file is unreadable, one of the four columns the loader
reads unconditionally (`Today's Date`, `%chng`, `Market Cap`, `Symbol`) is
absent, or some date cell is unparseable — absence of the other columns the
spec lists as required (`LTP`, the ratio columns, the text columns) does not
fail the load; and on success the percent-change, market-cap and ratio
fields of each row are the field-level parses, which are `none` (missing,
not zero) when the cell is unparseable. -/
theorem claim4_load_failure_modes :
    ∀ (dateParse : String → Option ℕ) (file : Option RawTable),
      ((∃ e, load_data dateParse file = .error e) ↔
        (file = none ∨
          ∃ t, file = some t ∧
            ((∃ c ∈ accessedColumns, getCol t c = none) ∨
             (∃ cells, getCol t "Today's Date" = some cells ∧
               ∃ cell ∈ cells, dateParse cell = none)))) ∧
      (∀ t rows, file = some t → load_data dateParse file = .ok rows →
        ∀ chngCells mcapCells, getCol t "%chng" = some chngCells →
          getCol t "Market Cap" = some mcapCells →
          ∀ i, i < rows.length →
            (rows.getD i default).chng = parsePercent (chngCells.getD i "") ∧
            (rows.getD i default).marketCap =
              parseMarketCap (mcapCells.getD i "") ∧
            (rows.getD i default).roe =
              (getCol t "ROE").bind
                (fun cells => parseRatio (cells.getD i ""))) := by
  intro dp file
  constructor
  · cases file with
    | none =>
      constructor
      · intro _
        exact Or.inl rfl
      · intro _
        exact ⟨"could not read file", rfl⟩
    | some t =>
      constructor
      · rintro ⟨e, he⟩
        cases h1 : getCol t "Today's Date" with
        | none =>
          exact Or.inr ⟨t, rfl, Or.inl ⟨"Today's Date",
            by simp [accessedColumns], h1⟩⟩
        | some dateCells =>
          cases h2 : parseAll dp dateCells with
          | none =>
            exact Or.inr ⟨t, rfl, Or.inr ⟨dateCells, h1,
              (parseAll_eq_none_iff dp dateCells).mp h2⟩⟩
          | some dates =>
            cases h3 : getCol t "%chng" with
            | none =>
              exact Or.inr ⟨t, rfl, Or.inl ⟨"%chng",
                by simp [accessedColumns], h3⟩⟩
            | some chngCells =>
              cases h4 : getCol t "Market Cap" with
              | none =>
                exact Or.inr ⟨t, rfl, Or.inl ⟨"Market Cap",
                  by simp [accessedColumns], h4⟩⟩
              | some mcapCells =>
                cases h5 : getCol t "Symbol" with
                | none =>
                  exact Or.inr ⟨t, rfl, Or.inl ⟨"Symbol",
                    by simp [accessedColumns], h5⟩⟩
                | some symCells =>
                  exfalso
                  simp only [load_data, h1, h2, h3, h4, h5] at he
                  exact Except.noConfusion he
      · intro hc
        rcases hc with hfile | ⟨t', ht', hcond⟩
        · exact Option.noConfusion hfile
        · injection ht' with hh
          subst hh
          cases h1 : getCol t "Today's Date" with
          | none =>
            exact ⟨"missing column: Today's Date", by simp only [load_data, h1]⟩
          | some dateCells =>
            cases h2 : parseAll dp dateCells with
            | none =>
              exact ⟨"unparseable date", by simp only [load_data, h1, h2]⟩
            | some dates =>
              cases h3 : getCol t "%chng" with
              | none =>
                exact ⟨"missing column: %chng",
                  by simp only [load_data, h1, h2, h3]⟩
              | some chngCells =>
                cases h4 : getCol t "Market Cap" with
                | none =>
                  exact ⟨"missing column: Market Cap",
                    by simp only [load_data, h1, h2, h3, h4]⟩
                | some mcapCells =>
                  cases h5 : getCol t "Symbol" with
                  | none =>
                    exact ⟨"missing column: Symbol",
                      by simp only [load_data, h1, h2, h3, h4, h5]⟩
                  | some symCells =>
                    exfalso
                    rcases hcond with ⟨c, hcmem, hcnone⟩ |
                      ⟨cells, hcells, cell, hcellmem, hcellnone⟩
                    · have hc4 : c = "Today's Date" ∨ c = "%chng" ∨
                          c = "Market Cap" ∨ c = "Symbol" := by
                        simpa [accessedColumns] using hcmem
                      rcases hc4 with rfl | rfl | rfl | rfl
                      · rw [h1] at hcnone
                        exact Option.noConfusion hcnone
                      · rw [h3] at hcnone
                        exact Option.noConfusion hcnone
                      · rw [h4] at hcnone
                        exact Option.noConfusion hcnone
                      · rw [h5] at hcnone
                        exact Option.noConfusion hcnone
                    · rw [h1] at hcells
                      injection hcells with hh2
                      subst hh2
                      have hnone := (parseAll_eq_none_iff dp dateCells).mpr
                        ⟨cell, hcellmem, hcellnone⟩
                      rw [h2] at hnone
                      exact Option.noConfusion hnone
  · rintro t rows rfl hok chngCells mcapCells hchng hmcap i hi
    cases h1 : getCol t "Today's Date" with
    | none =>
      simp only [load_data, h1] at hok
      exact Except.noConfusion hok
    | some dateCells =>
      cases h2 : parseAll dp dateCells with
      | none =>
        simp only [load_data, h1, h2] at hok
        exact Except.noConfusion hok
      | some dates =>
        cases h4 : getCol t "Market Cap" with
        | none =>
          simp only [load_data, h1, h2, hchng, h4] at hok
          exact Except.noConfusion hok
        | some mcapCells' =>
          cases h5 : getCol t "Symbol" with
          | none =>
            simp only [load_data, h1, h2, hchng, h4, h5] at hok
            exact Except.noConfusion hok
          | some symCells =>
            rw [hmcap] at h4
            injection h4 with hc4
            subst hc4
            simp only [load_data, h1, h2, hchng, hmcap, h5,
              Except.ok.injEq] at hok
            have hilt : i < dates.length := by
              rw [← hok] at hi
              simpa using hi
            have hget : rows.getD i default =
                loadedRow t dates chngCells mcapCells symCells i := by
              rw [← hok]
              simp [List.getD, hilt]
            rw [hget]
            exact ⟨rfl, rfl, rfl⟩

/-- Witness for C4: a readable table missing the required date column loads
with an error. -/
theorem claim4_load_failure_modes_witness :
    ∃ e, load_data (fun _ => some 0) (some [("Symbol", ["X"])]) =
      Except.error e :=
  (claim4_load_failure_modes (fun _ => some 0)
      (some [("Symbol", ["X"])])).1.mpr
    (Or.inr ⟨[("Symbol", ["X"])], rfl,
      Or.inl ⟨"Today's Date", by decide, by decide⟩⟩)

/-- A readable one-row table carrying exactly the four columns the loader
reads: `LTP` (and Sector, ROE, ... ) are absent although the spec lists them
as required. -/
def exMissingLTP : RawTable :=
  [("Today's Date", ["2024-01-01"]), ("%chng", ["1.5%"]),
   ("Market Cap", ["₹100"]), ("Symbol", [" rel "])]

/-- C4 counterexample: the load is claimed to fail exactly when the file is
unreadable, a required column is absent, or a date cell is unparseable.  The
spec lists `LTP` among the required columns, `exMissingLTP` lacks it, every
date cell parses, and yet the load succeeds with a non-empty row list — so
the claimed equivalence, read with the spec's required-column set, is false
at this input. -/
theorem claim4_load_counterexample :
    "LTP" ∈ specRequiredColumns ∧
    getCol exMissingLTP "LTP" = none ∧
    (∃ rows, load_data (fun _ => some 0) (some exMissingLTP) =
        Except.ok rows ∧ rows ≠ []) ∧
    ¬ ((∃ e, load_data (fun _ => some 0) (some exMissingLTP) =
          Except.error e) ↔
        ((some exMissingLTP : Option RawTable) = none ∨
          ∃ t, (some exMissingLTP : Option RawTable) = some t ∧
            ((∃ c ∈ specRequiredColumns, getCol t c = none) ∨
             (∃ cells, getCol t "Today's Date" = some cells ∧
               ∃ cell ∈ cells, (fun _ : String => some (0 : ℕ)) cell =
                 none)))) := by
  have h1 : getCol exMissingLTP "Today's Date" = some ["2024-01-01"] := rfl
  have h2 : parseAll (fun _ => some 0) ["2024-01-01"] = some [0] := rfl
  have h3 : getCol exMissingLTP "%chng" = some ["1.5%"] := rfl
  have h4 : getCol exMissingLTP "Market Cap" = some ["₹100"] := rfl
  have h5 : getCol exMissingLTP "Symbol" = some [" rel "] := rfl
  have hok : load_data (fun _ => some 0) (some exMissingLTP) =
      Except.ok ((List.range ([0] : List ℕ).length).map
        (loadedRow exMissingLTP [0] ["1.5%"] ["₹100"] [" rel "])) := by
    simp only [load_data, h1, h2, h3, h4, h5]
  refine ⟨by decide, by decide, ⟨_, hok, by simp⟩, ?_⟩
  intro hiff
  rcases hiff.mpr (Or.inr ⟨exMissingLTP, rfl,
      Or.inl ⟨"LTP", by decide, by decide⟩⟩) with ⟨e, he⟩
  rw [hok] at he
  exact Except.noConfusion he

end Dashboard
